import Mathlib

/-
Verification of the Secret Santa matcher in santa.py.

The Python module keeps its state in mutable Person objects (shared between
the `people` list and the `name_to_person` dict) and in a dict-of-lists
constraint graph.  The embedding below renders that state functionally:

* `Person` is a record whose mutable `receiver` field is `Option String`
  (`None` = unset);
* the constraint graph is an association list `List (String × List String)`
  in Python-dict insertion order; values are Python lists, so duplicates and
  order are preserved and `remove` erases the first occurrence only;
* `name_to_person` maps a name to the *last* Person of that name inserted,
  which is how a Python dict built by repeated assignment behaves; because
  the dict shares objects with the `people` list, setting a receiver through
  the dict is modelled as updating the last person of that name in the list;
* a Python KeyError (name missing from `name_to_person`) is `none`;
  `check_receivers`'s possible ValueError is likewise `none`;
* `random.choice(edges)` is modelled by an arbitrary index stream
  `rand : ℕ → ℕ`; one value is consumed per call and reduced mod the list
  length, so any uniformly drawn element corresponds to some stream;
* the unbounded `while` loop of `secret_santa` is run on explicit fuel
  (number of loop iterations); `none` means the loop is still running after
  that many iterations.
-/

namespace Santa

structure Person where
  name : String
  email : String
  restriction : String
  wishlist : String
  receiver : Option String := none
deriving Repr, DecidableEq

abbrev Graph := List (String × List String)

/-- Keys of the graph dict, in insertion order. -/
def graphKeys (g : Graph) : List String := g.map Prod.fst

/-- graph[n]: value of the first (unique, for a real dict) entry with key n.
A missing key would be a Python KeyError; every call site below indexes with
a key obtained from the dict itself, so the `[]` default is unreachable. -/
def edgesOf (g : Graph) (n : String) : List String :=
  ((g.find? (fun e => e.1 == n)).map Prod.snd).getD []

/-- graph[n] = v: overwrite in place if the key exists (dict keeps the key's
original position), otherwise append a new entry. -/
def dictSet (g : Graph) (n : String) (v : List String) : Graph :=
  if g.any (fun e => e.1 == n) then
    g.map (fun e => if e.1 == n then (n, v) else e)
  else
    g ++ [(n, v)]

/-- Keys of a dict built by inserting the given names in order:
first-occurrence order, duplicates collapsed. -/
def dictKeysOf (l : List String) : List String :=
  l.foldl (fun acc n => if acc.contains n then acc else acc ++ [n]) []

/-- match_name_to_person: the dict maps a name to the last Person object of
that name (later insertions overwrite earlier ones). -/
def match_name_to_person (people : List Person) (n : String) : Option Person :=
  people.reverse.find? (fun p => p.name == n)

/-- get_person_from_name: dict lookup; a missing name is a KeyError. -/
def get_person_from_name (n : String) (people : List Person) : Option Person :=
  match_name_to_person people n

/-- check_people_data: every Person must have non-empty name, email,
restriction and wishlist (the Python `is None` arm has no counterpart for
Lean strings). -/
def check_people_data : List Person → Bool
  | [] => true
  | p :: ps =>
    if p.name.length ≤ 0 then false
    else if p.email.length ≤ 0 then false
    else if p.restriction.length ≤ 0 then false
    else if p.wishlist.length ≤ 0 then false
    else check_people_data ps

/-- generate_starting_graph: for each name, graph[name] = names.copy(). -/
def generate_starting_graph (names : List String) : Graph :=
  names.foldl (fun g n => dictSet g n names) []

/-- One iteration of the enforce_restrictions loop, acting on the entry of
one key: remove the self edge, then the significant-other edge, each with
the `in` guard of the source; the name_to_person lookup may KeyError. -/
def enforceEntry (people : List Person) (e : String × List String) :
    Option (String × List String) :=
  match get_person_from_name e.1 people with
  | none => none
  | some person =>
    let e1 := if e.2.contains e.1 then e.2.erase e.1 else e.2
    let e2 := if e1.contains person.restriction then e1.erase person.restriction else e1
    some (e.1, e2)

/-- enforce_restrictions: each loop iteration reads and writes only its own
key's entry, so the in-place loop over graph.keys() is an entry-wise pass;
a KeyError anywhere aborts (`none`). -/
def enforce_restrictions (g : Graph) (people : List Person) : Option Graph :=
  match g with
  | [] => some []
  | e :: rest =>
    match enforceEntry people e, enforce_restrictions rest people with
    | some e2, some g2 => some (e2 :: g2)
    | _, _ => none

/-- remove_receiver_from_edges: every entry except the gifter's has the
receiver removed (first occurrence, guarded by `in` as in the source). -/
def remove_receiver_from_edges (gifter receiver : String) (g : Graph) : Graph :=
  g.map (fun e =>
    if e.1 == gifter then e
    else (e.1, if e.2.contains receiver then e.2.erase receiver else e.2))

/-- gifter.set_receiver(receiver), where gifter = name_to_person[n]: the
dict holds the last Person of that name, so the last matching list element
is updated; if the name is absent the list is unchanged (that case is
unreachable, the lookup has already succeeded). -/
def setReceiverAt : List Person → String → Option String → List Person
  | [], _, _ => []
  | p :: ps, n, r =>
    if (ps.map Person.name).contains n then p :: setReceiverAt ps n r
    else if p.name == n then { p with receiver := r } :: ps
    else p :: ps

/-- reset_matches: set every receiver back to None. -/
def reset_matches (people : List Person) : List Person :=
  people.map (fun p => { p with receiver := none })

/-- check_matches: false as soon as some receiver equals the person's own
name, equals their restriction, or is unset. -/
def check_matches : List Person → Bool
  | [] => true
  | p :: ps =>
    if p.receiver == some p.name || p.receiver == some p.restriction
        || p.receiver == none then false
    else check_matches ps

/-- The removal loop of check_receivers: list_of_names.remove(receiver) for
each person; removing an unset receiver or a name no longer present raises
ValueError (`none`). -/
def checkReceiversGo : List Person → List String → Option (List String)
  | [], l => some l
  | p :: ps, l =>
    match p.receiver with
    | none => none
    | some s => if l.contains s then checkReceiversGo ps (l.erase s) else none

/-- check_receivers: copy the names, remove each person's receiver, then
succeed iff nothing is left over; a failed removal is an uncaught
ValueError, not a boolean result. -/
def check_receivers (people : List Person) (names : List String) : Option Bool :=
  match checkReceiversGo people names with
  | none => none
  | some l => some (decide (l.length = 0))

/-- Result of set_matches: the final graph, people and random-stream
position, plus whether the pass ran to completion (`false` = terminated
early on an empty edge list); KeyError aborts. -/
inductive SMRes where
  | keyError
  | res (g : Graph) (people : List Person) (k : ℕ) (complete : Bool)
deriving Repr, DecidableEq

/-- The assignment loop of set_matches over the snapshot of graph.keys():
empty edge list ⇒ early termination; otherwise pick edges[rand k % len],
set it as the gifter's receiver and remove it from everyone else's edges. -/
def setMatchesGo (rand : ℕ → ℕ) : List String → Graph → List Person → ℕ → SMRes
  | [], g, people, k => .res g people k true
  | n :: rest, g, people, k =>
    let edges := edgesOf g n
    if edges.length = 0 then .res g people k false
    else
      let receiver := edges.getD (rand k % edges.length) ""
      match get_person_from_name n people with
      | none => .keyError
      | some gifter =>
        let people1 := setReceiverAt people gifter.name (some receiver)
        let g1 := remove_receiver_from_edges gifter.name receiver g
        setMatchesGo rand rest g1 people1 (k + 1)

/-- set_matches: enforce the restrictions once more (the source notes this
is harmless), then run the assignment loop. -/
def set_matches (rand : ℕ → ℕ) (g : Graph) (people : List Person) (k : ℕ) : SMRes :=
  match enforce_restrictions g people with
  | none => .keyError
  | some g1 => setMatchesGo rand (graphKeys g1) g1 people k

/-- How a call to secret_santa can end: return the pairing graph and the
matched people; hit the UnboundLocalError at `return graph` because the
while body never ran; or crash with a KeyError. -/
inductive SantaOutcome where
  | success (graph : Graph) (people : List Person)
  | unboundLocal
  | keyError
deriving Repr, DecidableEq

/-- The while body of secret_santa, run at most `fuel` times: reset the
receivers, build a fresh graph, enforce restrictions, run set_matches, and
stop as soon as check_matches holds; `none` = still looping after `fuel`
iterations (the source has no attempt bound of its own). -/
def secretSantaAux (rand : ℕ → ℕ) (names : List String) :
    List Person → ℕ → ℕ → Option SantaOutcome
  | _, _, 0 => none
  | people, k, fuel + 1 =>
    let people1 := reset_matches people
    let g1 := generate_starting_graph names
    match enforce_restrictions g1 people1 with
    | none => some .keyError
    | some g2 =>
      match set_matches rand g2 people1 k with
      | .keyError => some .keyError
      | .res g3 people2 k2 _complete =>
        if check_matches people2 then some (.success g3 people2)
        else secretSantaAux rand names people2 k2 fuel

/-- secret_santa(people, names, name_to_person): if check_matches already
holds on entry the while body never runs and `return graph` raises
UnboundLocalError; otherwise iterate the body (name_to_person is the dict
built from `people` and is reconstructed from it at each lookup). -/
def secret_santa (rand : ℕ → ℕ) (people : List Person) (names : List String)
    (fuel : ℕ) : Option SantaOutcome :=
  if check_matches people then some .unboundLocal
  else secretSantaAux rand names people 0 fuel

def NUM_PEOPLE : ℕ := 6

/-- How run_secret_santa gets through its pre-matching phase: the count
check and check_people_data each print and return (no exception is raised,
and no InvalidRosterError / MatchingExhaustedError type exists in the
source); otherwise the matching algorithm is invoked. -/
inductive RunOutcome where
  | wrongCount
  | badData
  | matching (result : Option SantaOutcome)
deriving Repr, DecidableEq

/-- run_secret_santa, from the roster checks through the secret_santa call
(lines 256-270 of the source; the later re-checks and the emailing are I/O
glue outside every claim). `names` is list(name_to_person.keys()). -/
def run_secret_santa (rand : ℕ → ℕ) (fuel : ℕ) (people : List Person) : RunOutcome :=
  if people.length ≠ NUM_PEOPLE then .wrongCount
  else if !check_people_data people then .badData
  else
    let names := dictKeysOf (people.map Person.name)
    .matching (secret_santa rand people names fuel)

/-! ## Concrete fixtures -/

/-- A constant index stream: random.choice always picks the first element. -/
def randZero : ℕ → ℕ := fun _ => 0

/-- Two participants who each exclude the other: after the restrictions are
enforced every eligible list is empty, so no valid assignment exists. -/
def pairPeople : List Person :=
  [{ name := "A", email := "a", restriction := "B", wishlist := "wa" },
   { name := "B", email := "b", restriction := "A", wishlist := "wb" }]

def pairNames : List String := ["A", "B"]

/-- The receivers actually assigned so far, in roster order (spec side:
the multiset of assigned_receiver values). -/
def assigned (p : List Person) : List String := p.filterMap Person.receiver

/-- The spec's concrete scenario: two mutually excluded pairs. -/
def people4 : List Person :=
  [{ name := "A", email := "a", restriction := "B", wishlist := "wa" },
   { name := "B", email := "b", restriction := "A", wishlist := "wb" },
   { name := "C", email := "c", restriction := "D", wishlist := "wc" },
   { name := "D", email := "d", restriction := "C", wishlist := "wd" }]

def names4 : List String := ["A", "B", "C", "D"]

/-- The state people4 reaches under the pick-first stream: A→C, B→D, C→A,
D→B. -/
def people4final : List Person :=
  [{ name := "A", email := "a", restriction := "B", wishlist := "wa", receiver := some "C" },
   { name := "B", email := "b", restriction := "A", wishlist := "wb", receiver := some "D" },
   { name := "C", email := "c", restriction := "D", wishlist := "wc", receiver := some "A" },
   { name := "D", email := "d", restriction := "C", wishlist := "wd", receiver := some "B" }]

def graph4final : Graph := [("A", ["C"]), ("B", ["D"]), ("C", ["A"]), ("D", ["B"])]

/-- Six entries with a duplicated name and a dangling restriction. -/
def rosterDup : List Person :=
  [{ name := "A", email := "a1", restriction := "Z", wishlist := "w1" },
   { name := "A", email := "a2", restriction := "Z", wishlist := "w2" },
   { name := "B", email := "b", restriction := "Z", wishlist := "w3" },
   { name := "C", email := "c", restriction := "Z", wishlist := "w4" },
   { name := "D", email := "d", restriction := "Z", wishlist := "w5" },
   { name := "E", email := "e", restriction := "Z", wishlist := "w6" }]

/-! ## Helper lemmas -/

theorem check_matches_eq_true_iff (people : List Person) :
    check_matches people = true ↔
      ∀ p ∈ people, p.receiver ≠ none ∧ p.receiver ≠ some p.name ∧
        p.receiver ≠ some p.restriction := by
  induction people with
  | nil => simp [check_matches]
  | cons p ps ih =>
    rw [check_matches]
    by_cases h1 : p.receiver = some p.name
    · rw [if_pos (by simp [h1])]
      constructor
      · intro hx; simp at hx
      · intro hall; exact absurd h1 (hall p (List.mem_cons_self p ps)).2.1
    · by_cases h2 : p.receiver = some p.restriction
      · rw [if_pos (by simp [h2])]
        constructor
        · intro hx; simp at hx
        · intro hall; exact absurd h2 (hall p (List.mem_cons_self p ps)).2.2
      · by_cases h3 : p.receiver = none
        · rw [if_pos (by simp [h3])]
          constructor
          · intro hx; simp at hx
          · intro hall; exact absurd h3 (hall p (List.mem_cons_self p ps)).1
        · rw [if_neg (by simp [h1, h2, h3])]
          rw [ih]
          constructor
          · intro h q hq
            rcases List.mem_cons.mp hq with hEq | hq2
            · subst hEq; exact ⟨h3, h1, h2⟩
            · exact h q hq2
          · intro h q hq; exact h q (List.mem_cons_of_mem p hq)

theorem check_people_data_false_of_bad_field (people : List Person) (p : Person)
    (hp : p ∈ people)
    (hbad : p.name = "" ∨ p.email = "" ∨ p.restriction = "" ∨ p.wishlist = "") :
    check_people_data people = false := by
  induction people with
  | nil => cases hp
  | cons q qs ih =>
    rw [check_people_data]
    rcases List.mem_cons.mp hp with rfl | hmem
    · by_cases h1 : p.name.length ≤ 0
      · rw [if_pos h1]
      · rw [if_neg h1]
        by_cases h2 : p.email.length ≤ 0
        · rw [if_pos h2]
        · rw [if_neg h2]
          by_cases h3 : p.restriction.length ≤ 0
          · rw [if_pos h3]
          · rw [if_neg h3]
            by_cases h4 : p.wishlist.length ≤ 0
            · rw [if_pos h4]
            · exfalso
              rcases hbad with h | h | h | h
              · exact h1 (by simp [h])
              · exact h2 (by simp [h])
              · exact h3 (by simp [h])
              · exact h4 (by simp [h])
    · split
      · rfl
      · split
        · rfl
        · split
          · rfl
          · split
            · rfl
            · exact ih hmem

/-- On the mutually-excluded pair every loop iteration restores the initial
state, so one unfolding of the while body is the identity. -/
theorem pair_step (rand : ℕ → ℕ) (k fuel : ℕ) :
    secretSantaAux rand pairNames pairPeople k (fuel + 1) =
      secretSantaAux rand pairNames pairPeople k fuel := rfl

theorem pair_aux_none (rand : ℕ → ℕ) (k fuel : ℕ) :
    secretSantaAux rand pairNames pairPeople k fuel = none := by
  induction fuel with
  | zero => rfl
  | succ n ih => rw [pair_step]; exact ih

theorem guard_erase (l : List String) (a : String) :
    (if l.contains a then l.erase a else l) = l.erase a := by
  by_cases h : l.contains a
  · rw [if_pos h]
  · rw [if_neg h, List.erase_of_not_mem (by simpa using h)]

theorem enforceEntry_some (people : List Person) (n : String) (l : List String)
    (q : Person) (hq : get_person_from_name n people = some q) :
    enforceEntry people (n, l) = some (n, (l.erase n).erase q.restriction) := by
  simp only [enforceEntry, hq, guard_erase]

theorem enforceEntry_idem (people : List Person) (e e2 : String × List String)
    (hn : e.2.Nodup) (h : enforceEntry people e = some e2) :
    enforceEntry people e2 = some e2 := by
  obtain ⟨n, l⟩ := e
  cases hq : get_person_from_name n people with
  | none => rw [enforceEntry] at h; simp [hq] at h
  | some q =>
    rw [enforceEntry_some people n l q hq] at h
    obtain rfl : e2 = (n, (l.erase n).erase q.restriction) := by
      cases h; rfl
    have hn1 : (l.erase n).Nodup := hn.erase n
    have hself : n ∉ (l.erase n).erase q.restriction := fun hm =>
      absurd ((hn.mem_erase_iff).mp (List.mem_of_mem_erase hm)).1 (by simp)
    have hrestr : q.restriction ∉ (l.erase n).erase q.restriction := fun hm =>
      absurd ((hn1.mem_erase_iff).mp hm).1 (by simp)
    rw [enforceEntry_some people n _ q hq, List.erase_of_not_mem hself,
      List.erase_of_not_mem hrestr]

theorem edgesOf_cons (e : String × List String) (g : Graph) (m : String) :
    edgesOf (e :: g) m = if e.1 = m then e.2 else edgesOf g m := by
  by_cases h : e.1 = m
  · rw [if_pos h, edgesOf, List.find?_cons_of_pos]
    · rfl
    · simpa using h
  · rw [if_neg h, edgesOf, List.find?_cons_of_neg, edgesOf]
    simpa using h

theorem edgesOf_remove (gifter r : String) (g : Graph) (m : String) :
    edgesOf (remove_receiver_from_edges gifter r g) m =
      if m = gifter then edgesOf g m else (edgesOf g m).erase r := by
  induction g with
  | nil =>
    by_cases h : m = gifter <;> simp [remove_receiver_from_edges, edgesOf, h]
  | cons e rest ih =>
    obtain ⟨n, l⟩ := e
    have hmap : remove_receiver_from_edges gifter r ((n, l) :: rest) =
        (n, if n == gifter then l else if l.contains r then l.erase r else l) ::
          remove_receiver_from_edges gifter r rest := by
      by_cases hg : n = gifter <;> simp [remove_receiver_from_edges, hg]
    simp only [hmap, edgesOf_cons]
    by_cases hm : n = m
    · by_cases hmg : m = gifter
      · have hg : n = gifter := by rw [hm]; exact hmg
        simp [hm, hmg, hg]
      · have hg : ¬ n = gifter := by rw [hm]; exact hmg
        simp only [if_pos hm, if_neg hmg, guard_erase]
        simp [hg]
    · simp only [if_neg hm, ih]

theorem checkReceiversGo_spec : ∀ (people : List Person) (l l2 : List String),
    checkReceiversGo people l = some l2 →
    l.length = l2.length + people.length ∧ ∀ p ∈ people, p.receiver ≠ none := by
  intro people
  induction people with
  | nil =>
    intro l l2 h
    rw [checkReceiversGo] at h
    cases h
    exact ⟨rfl, by simp⟩
  | cons p ps ih =>
    intro l l2 h
    cases hr : p.receiver with
    | none => simp [checkReceiversGo, hr] at h
    | some s =>
      simp only [checkReceiversGo, hr] at h
      by_cases hc : l.contains s
      · rw [if_pos hc] at h
        obtain ⟨hlen, hall⟩ := ih _ _ h
        have hm : s ∈ l := by simpa using hc
        have he : (l.erase s).length = l.length - 1 := List.length_erase_of_mem hm
        have hp : 0 < l.length := List.length_pos_of_mem hm
        refine ⟨by simp only [List.length_cons]; omega, ?_⟩
        intro q hq
        rcases List.mem_cons.mp hq with rfl | hq2
        · rw [hr]; simp
        · exact hall q hq2
      · rw [if_neg hc] at h; cases h

/-! ## Claims -/

/-- Claim C1 (amended): secret_santa has no attempt budget and no
MatchingExhaustedError exists in the source.  On a roster admitting no valid
assignment — here the two-person mutually-excluding roster — the while loop
never terminates: for every random stream and every number of loop
iterations it is still running (`none`), having raised nothing. -/
theorem claim_C1_theorem (rand : ℕ → ℕ) (fuel : ℕ) :
    secret_santa rand pairPeople pairNames fuel = none := by
  rw [secret_santa, if_neg (by decide : ¬ check_matches pairPeople = true)]
  exact pair_aux_none rand 0 fuel

/-- Claim C1 counterexample: on the over-constrained pair roster the run is
still looping after 1000 attempts with the pick-first random stream, so it
does not terminate within any modest attempt budget, and no
MatchingExhaustedError is ever produced. -/
theorem claim_C1_counterexample :
    secret_santa randZero pairPeople pairNames 1000 = none := by
  rw [secret_santa, if_neg (by decide : ¬ check_matches pairPeople = true)]
  exact pair_aux_none randZero 0 1000

/-- Claim C3 (amended): before matching, run_secret_santa checks only the
participant count and the non-emptiness of the four fields (by printing and
returning, not by raising).  Rosters with duplicate names or dangling
exclusion references pass check_people_data, and matching runs on them. -/
theorem claim_C3_theorem (rand : ℕ → ℕ) (fuel : ℕ) (people : List Person) :
    (people.length ≠ NUM_PEOPLE →
      run_secret_santa rand fuel people = RunOutcome.wrongCount) ∧
    (people.length = NUM_PEOPLE → check_people_data people = false →
      run_secret_santa rand fuel people = RunOutcome.badData) ∧
    ((∃ p ∈ people, p.name = "") → check_people_data people = false) ∧
    (people.length = NUM_PEOPLE → check_people_data people = true →
      run_secret_santa rand fuel people =
        RunOutcome.matching
          (secret_santa rand people (dictKeysOf (people.map Person.name)) fuel)) := by
  refine ⟨?_, ?_, ?_, ?_⟩
  · intro h; rw [run_secret_santa, if_pos h]
  · intro h1 h2
    rw [run_secret_santa, if_neg (by simp [h1]), if_pos (by simp [h2])]
  · rintro ⟨p, hp, hname⟩
    exact check_people_data_false_of_bad_field people p hp (Or.inl hname)
  · intro h1 h2
    rw [run_secret_santa, if_neg (by simp [h1]), if_neg (by simp [h2])]

/-- Claim C3 counterexample: a six-entry roster with a duplicated name (and
dangling restriction "Z") passes every precondition check and reaches the
matching algorithm — nothing equivalent to InvalidRosterError stops it. -/
theorem claim_C3_counterexample :
    rosterDup.length = NUM_PEOPLE ∧
    ¬ (rosterDup.map Person.name).Nodup ∧
    (∀ p ∈ rosterDup, ¬ ∃ q ∈ rosterDup, q.name = p.restriction) ∧
    check_people_data rosterDup = true ∧
    run_secret_santa randZero 1 rosterDup = RunOutcome.matching none :=
  ⟨by decide, by decide, by decide, by decide, by decide⟩

/-- Claim C3 witness: the wrong-count and empty-name cases do stop the run
before matching. -/
theorem claim_C3_witness :
    run_secret_santa randZero 1
      [{ name := "A", email := "a", restriction := "B", wishlist := "w" }] =
      RunOutcome.wrongCount ∧
    check_people_data
      [{ name := "", email := "a", restriction := "B", wishlist := "w" }] = false :=
  ⟨(claim_C3_theorem randZero 1
      [{ name := "A", email := "a", restriction := "B", wishlist := "w" }]).1
      (by decide),
   (claim_C3_theorem randZero 1
      [{ name := "", email := "a", restriction := "B", wishlist := "w" }]).2.2.1
      ⟨{ name := "", email := "a", restriction := "B", wishlist := "w" },
        List.mem_cons_self _ _, rfl⟩⟩

/-- Claim C4 (amended): a roster entry whose excluded_receiver field is
empty is rejected by check_people_data — the restriction must be non-empty,
contrary to the spec's empty-means-no-exclusion reading. -/
theorem claim_C4_theorem (people : List Person) (p : Person) (hp : p ∈ people)
    (hr : p.restriction = "") : check_people_data people = false :=
  check_people_data_false_of_bad_field people p hp (Or.inr (Or.inr (Or.inl hr)))

/-- Claim C4 counterexample: an entry with empty excluded_receiver and all
other fields populated fails the precondition check. -/
theorem claim_C4_counterexample :
    check_people_data
      [{ name := "A", email := "a", restriction := "", wishlist := "w" }] = false := by
  decide

/-- Claim C4 witness: the rejection also fires when the empty-restriction
entry sits behind a fully populated one. -/
theorem claim_C4_witness :
    check_people_data
      [{ name := "B", email := "b", restriction := "A", wishlist := "w" },
       { name := "A", email := "a", restriction := "", wishlist := "w" }] = false :=
  claim_C4_theorem _ { name := "A", email := "a", restriction := "", wishlist := "w" }
    (by decide) rfl

/-- Claim C5: check_matches is true iff every participant has a receiver
that is set, differs from their own name and differs from their
restriction. -/
theorem claim_C5_theorem (people : List Person) :
    check_matches people = true ↔
      ∀ p ∈ people, p.receiver ≠ none ∧ p.receiver ≠ some p.name ∧
        p.receiver ≠ some p.restriction :=
  check_matches_eq_true_iff people

/-- Claim C6: a roster of size 1 always fails the participant-count
precondition in run_secret_santa (1 ≠ NUM_PEOPLE = 6) — the
InvalidRosterError analogue — so the run neither hangs nor succeeds and the
matcher is never invoked. -/
theorem claim_C6_theorem (rand : ℕ → ℕ) (fuel : ℕ) (people : List Person)
    (h : people.length = 1) :
    run_secret_santa rand fuel people = RunOutcome.wrongCount := by
  rw [run_secret_santa, if_pos (show people.length ≠ NUM_PEOPLE by rw [h]; decide)]

/-- Claim C6 witness: a concrete singleton roster is stopped before
matching. -/
theorem claim_C6_witness :
    run_secret_santa randZero 5
      [{ name := "A", email := "a", restriction := "B", wishlist := "w" }] =
      RunOutcome.wrongCount :=
  claim_C6_theorem randZero 5 _ rfl

/-- Claim C7: enforce_restrictions is idempotent — on any constraint graph
whose eligible lists are duplicate-free (eligible receivers form a set, as
in every graph generate_starting_graph builds from distinct names), a
second call returns the first call's graph unchanged. -/
theorem claim_C7_theorem : ∀ (g : Graph) (people : List Person) (g2 : Graph),
    (∀ e ∈ g, e.2.Nodup) → enforce_restrictions g people = some g2 →
    enforce_restrictions g2 people = some g2 := by
  intro g
  induction g with
  | nil =>
    intro people g2 _ h
    rw [enforce_restrictions] at h
    cases h
    rw [enforce_restrictions]
  | cons e rest ih =>
    intro people g2 hnd h
    rw [enforce_restrictions] at h
    cases he : enforceEntry people e with
    | none => rw [he] at h; cases h
    | some e2 =>
      cases hr : enforce_restrictions rest people with
      | none => rw [he, hr] at h; cases h
      | some g3 =>
        rw [he, hr] at h
        cases h
        have h1 : enforceEntry people e2 = some e2 :=
          enforceEntry_idem people e e2 (hnd e (List.mem_cons_self e rest)) he
        have h2 : enforce_restrictions g3 people = some g3 :=
          ih people g3 (fun x hx => hnd x (List.mem_cons_of_mem e hx)) hr
        rw [enforce_restrictions, h1, h2]

/-- Claim C7 witness: a concrete idempotent run — after the first pass has
removed the self and restriction edges, a second pass changes nothing. -/
theorem claim_C7_witness :
    enforce_restrictions [("A", ([] : List String))]
      [{ name := "A", email := "a", restriction := "B", wishlist := "w" }] =
      some [("A", [])] :=
  claim_C7_theorem [("A", ["A", "B"])]
    [{ name := "A", email := "a", restriction := "B", wishlist := "w" }]
    [("A", [])] (by decide) (by decide)

/-- Claim C8: remove_receiver_from_edges erases the chosen receiver from the
eligible list of every participant other than the gifter — so, lists being
duplicate-free in every graph the algorithm builds, the receiver is no
longer eligible anywhere else — while the gifter's own list is untouched. -/
theorem claim_C8_theorem (g : Graph) (gifter receiver m : String) :
    (edgesOf (remove_receiver_from_edges gifter receiver g) m =
      if m = gifter then edgesOf g m else (edgesOf g m).erase receiver) ∧
    ((edgesOf g m).Nodup → m ≠ gifter →
      receiver ∉ edgesOf (remove_receiver_from_edges gifter receiver g) m) := by
  refine ⟨edgesOf_remove gifter receiver g m, ?_⟩
  intro hnd hm
  rw [edgesOf_remove, if_neg hm]
  intro hmem
  exact absurd ((hnd.mem_erase_iff).mp hmem).1 (by simp)

/-- Claim C8 witness: removing receiver "C" chosen for gifter "A" empties it
from "B"'s eligible list but leaves "A"'s list as it was. -/
theorem claim_C8_witness :
    "C" ∉ edgesOf
      (remove_receiver_from_edges "A" "C" [("A", ["B", "C"]), ("B", ["B", "C"])]) "B" :=
  (claim_C8_theorem [("A", ["B", "C"]), ("B", ["B", "C"])] "A" "C" "B").2
    (by decide) (by decide)

/-- Claim C9: check_receivers is not a total boolean check: an unset (None)
receiver, or the same name assigned twice, makes list.remove raise an
uncaught ValueError (modelled as `none`) instead of returning false; and a
`false` return happens only when every removal succeeded (all receivers set)
and unclaimed names remain (strictly more names than people). -/
theorem claim_C9_theorem :
    check_receivers
      [{ name := "A", email := "a", restriction := "B", wishlist := "w" }] ["A"] =
      none ∧
    check_receivers
      [{ name := "A", email := "a", restriction := "B", wishlist := "w",
         receiver := some "X" },
       { name := "B", email := "b", restriction := "A", wishlist := "w",
         receiver := some "X" }] ["A", "B", "X"] = none ∧
    ∀ (people : List Person) (names : List String),
      check_receivers people names = some false →
      (∀ p ∈ people, p.receiver ≠ none) ∧ people.length < names.length := by
  refine ⟨by decide, by decide, ?_⟩
  intro people names h
  rw [check_receivers] at h
  cases hg : checkReceiversGo people names with
  | none => rw [hg] at h; cases h
  | some l =>
    rw [hg] at h
    have hd : decide (l.length = 0) = false := Option.some.inj h
    have hl : l.length ≠ 0 := by simpa using hd
    obtain ⟨hlen, hall⟩ := checkReceiversGo_spec people names l hg
    exact ⟨hall, by omega⟩

/-- Claim C10: when check_matches already holds on entry — vacuously so for
an empty participant list — the while body of secret_santa never runs and
the function hits the UnboundLocalError at `return graph` instead of
returning a pairing graph. -/
theorem claim_C10_theorem (rand : ℕ → ℕ) (people : List Person)
    (names : List String) (fuel : ℕ) (h : check_matches people = true) :
    secret_santa rand people names fuel = some SantaOutcome.unboundLocal := by
  rw [secret_santa, if_pos h]

/-- Claim C10 witness: the empty roster satisfies check_matches vacuously
and secret_santa ends in the UnboundLocalError outcome. -/
theorem claim_C10_witness :
    check_matches ([] : List Person) = true ∧
    secret_santa randZero [] [] 0 = some SantaOutcome.unboundLocal :=
  ⟨by decide, claim_C10_theorem randZero [] [] 0 (by decide)⟩

/-! ## Toward the bijection property (C2) -/

theorem getD_mem_of_lt (l : List String) (i : ℕ) (d : String) (h : i < l.length) :
    l.getD i d ∈ l := by
  rw [List.getD_eq_getElem l d h]
  exact List.getElem_mem h

theorem get_person_from_name_spec (n : String) (p : List Person) (q : Person)
    (h : get_person_from_name n p = some q) : q ∈ p ∧ q.name = n := by
  rw [get_person_from_name, match_name_to_person] at h
  exact ⟨List.mem_reverse.mp (List.mem_of_find?_eq_some h),
    by simpa using List.find?_some h⟩

theorem setReceiverAt_map_name (p : List Person) (n : String) (r : Option String) :
    (setReceiverAt p n r).map Person.name = p.map Person.name := by
  induction p with
  | nil => rfl
  | cons q qs ih =>
    rw [setReceiverAt]
    by_cases hc : (qs.map Person.name).contains n
    · rw [if_pos hc, List.map_cons, List.map_cons, ih]
    · rw [if_neg hc]
      by_cases hq : q.name = n
      · rw [if_pos (by simpa using hq)]
        rfl
      · rw [if_neg (by simpa using hq)]

/-- An element whose name is not the updated one survives setReceiverAt
untouched. -/
theorem setReceiverAt_mem_of_ne (p : List Person) (n : String) (r : Option String)
    (x : Person) (hx : x ∈ p) (hne : x.name ≠ n) : x ∈ setReceiverAt p n r := by
  induction p with
  | nil => cases hx
  | cons q qs ih =>
    rw [setReceiverAt]
    rcases List.mem_cons.mp hx with hEq | hmem
    · subst hEq
      by_cases hc : (qs.map Person.name).contains n
      · rw [if_pos hc]; exact List.mem_cons_self x _
      · rw [if_neg hc]
        by_cases hq : x.name = n
        · exact absurd hq hne
        · rw [if_neg (by simpa using hq)]
          exact List.mem_cons_self x _
    · by_cases hc : (qs.map Person.name).contains n
      · rw [if_pos hc]; exact List.mem_cons_of_mem q (ih hmem)
      · rw [if_neg hc]
        by_cases hq : q.name = n
        · rw [if_pos (by simpa using hq)]
          exact List.mem_cons_of_mem _ hmem
        · rw [if_neg (by simpa using hq)]
          exact List.mem_cons_of_mem q hmem

/-- Under duplicate-free names, every member of the updated list either is
the freshly assigned person or sits unchanged in the original list. -/
theorem setReceiverAt_forall (p : List Person) (n : String) (r : Option String)
    (h1 : (p.map Person.name).Nodup) (x : Person)
    (hx : x ∈ setReceiverAt p n r) :
    (x.name = n ∧ x.receiver = r) ∨ (x ∈ p ∧ x.name ≠ n) := by
  induction p with
  | nil => cases hx
  | cons q qs ih =>
    rw [setReceiverAt] at hx
    have h1t : (qs.map Person.name).Nodup := (List.nodup_cons.mp h1).2
    by_cases hc : (qs.map Person.name).contains n
    · rw [if_pos hc] at hx
      have hqn : q.name ≠ n := fun hEq => by
        exact absurd (by simpa using hc) ((List.nodup_cons.mp h1).1 ∘ (hEq ▸ ·))
      rcases List.mem_cons.mp hx with hEq | hmem
      · exact Or.inr ⟨hEq ▸ List.mem_cons_self q qs, hEq ▸ hqn⟩
      · rcases ih h1t hmem with h | ⟨hm, hne⟩
        · exact Or.inl h
        · exact Or.inr ⟨List.mem_cons_of_mem q hm, hne⟩
    · rw [if_neg hc] at hx
      have htail : ∀ y ∈ qs, y.name ≠ n := by
        intro y hy hEq
        apply hc
        have hmm : y.name ∈ qs.map Person.name := List.mem_map_of_mem Person.name hy
        rw [hEq] at hmm
        simpa using hmm
      by_cases hq : q.name = n
      · rw [if_pos (by simpa using hq)] at hx
        rcases List.mem_cons.mp hx with hEq | hmem
        · subst hEq; exact Or.inl ⟨hq, rfl⟩
        · exact Or.inr ⟨List.mem_cons_of_mem q hmem, htail x hmem⟩
      · rw [if_neg (by simpa using hq)] at hx
        rcases List.mem_cons.mp hx with hEq | hmem
        · exact Or.inr ⟨hEq ▸ List.mem_cons_self q qs, hEq ▸ hq⟩
        · exact Or.inr ⟨List.mem_cons_of_mem q hmem, htail x hmem⟩

/-- Assigning a receiver to the (unique) so-far-unassigned person named n
adds exactly that receiver to the multiset of assigned receivers. -/
theorem assigned_setReceiverAt (p : List Person) (n : String) (r : String)
    (h1 : (p.map Person.name).Nodup) (q : Person) (hq : q ∈ p)
    (hqn : q.name = n) (hq0 : q.receiver = none) :
    List.Perm (assigned (setReceiverAt p n (some r))) (r :: assigned p) := by
  induction p with
  | nil => cases hq
  | cons a as ih =>
    have h1t : (as.map Person.name).Nodup := (List.nodup_cons.mp h1).2
    rw [setReceiverAt]
    by_cases hc : (as.map Person.name).contains n
    · rw [if_pos hc]
      have hqas : q ∈ as := by
        rcases List.mem_cons.mp hq with hEq | hmem
        · exfalso
          exact (List.nodup_cons.mp h1).1 (by simpa [hEq ▸ hqn] using hc)
        · exact hmem
      have hperm := ih h1t hqas
      cases ha : a.receiver with
      | none =>
        rw [assigned, List.filterMap_cons, ha, assigned, List.filterMap_cons, ha]
        exact hperm
      | some s =>
        rw [assigned, List.filterMap_cons, ha, assigned, List.filterMap_cons, ha]
        exact (hperm.cons s).trans (List.Perm.swap r s (assigned as))
    · rw [if_neg hc]
      have haq : a = q := by
        rcases List.mem_cons.mp hq with hEq | hmem
        · exact hEq.symm
        · exact absurd (by simpa using List.mem_map_of_mem Person.name hmem)
            (fun hmm => hc (by simpa [hqn] using hmm))
      subst haq
      rw [if_pos (by simpa using hqn)]
      simp [assigned, List.filterMap_cons, hq0]

theorem reset_map_name (p : List Person) :
    (reset_matches p).map Person.name = p.map Person.name := by
  rw [reset_matches, List.map_map]
  rfl

theorem reset_receiver_none (p : List Person) (q : Person)
    (hq : q ∈ reset_matches p) : q.receiver = none := by
  rw [reset_matches] at hq
  obtain ⟨x, _, rfl⟩ := List.mem_map.mp hq
  rfl

theorem assigned_reset (p : List Person) : assigned (reset_matches p) = [] := by
  induction p with
  | nil => rfl
  | cons q qs ih =>
    rw [reset_matches, List.map_cons, assigned, List.filterMap_cons]
    exact ih

theorem assigned_length (p : List Person) (h : ∀ q ∈ p, q.receiver ≠ none) :
    (assigned p).length = p.length := by
  induction p with
  | nil => rfl
  | cons q qs ih =>
    cases hr : q.receiver with
    | none => exact absurd hr (h q (List.mem_cons_self q qs))
    | some s =>
      rw [assigned, List.filterMap_cons, hr, List.length_cons, List.length_cons]
      exact congrArg Nat.succ (ih (fun x hx => h x (List.mem_cons_of_mem q hx)))

theorem map_receiver_eq_assigned (p : List Person)
    (h : ∀ q ∈ p, q.receiver ≠ none) :
    p.map Person.receiver = (assigned p).map some := by
  induction p with
  | nil => rfl
  | cons q qs ih =>
    cases hr : q.receiver with
    | none => exact absurd hr (h q (List.mem_cons_self q qs))
    | some s =>
      rw [List.map_cons, hr, assigned, List.filterMap_cons, hr, List.map_cons]
      exact congrArg (List.cons (some s)) (ih (fun x hx => h x (List.mem_cons_of_mem q hx)))

theorem setMatchesGo_map_name (rand : ℕ → ℕ) : ∀ (ks : List String) (g : Graph)
    (p : List Person) (k : ℕ) (g2 : Graph) (p2 : List Person) (k2 : ℕ) (c : Bool),
    setMatchesGo rand ks g p k = SMRes.res g2 p2 k2 c →
    p2.map Person.name = p.map Person.name := by
  intro ks
  induction ks with
  | nil =>
    intro g p k g2 p2 k2 c h
    cases h
    rfl
  | cons n rest ih =>
    intro g p k g2 p2 k2 c h
    simp only [setMatchesGo] at h
    by_cases hlen : (edgesOf g n).length = 0
    · rw [if_pos hlen] at h
      cases h
      rfl
    · rw [if_neg hlen] at h
      cases hlook : get_person_from_name n p with
      | none => rw [hlook] at h; cases h
      | some gifter =>
        rw [hlook] at h
        rw [ih _ _ _ _ _ _ _ h, setReceiverAt_map_name]

theorem edgesOf_cons_pair (n : String) (l : List String) (g : Graph) (m : String) :
    edgesOf ((n, l) :: g) m = if n = m then l else edgesOf g m :=
  edgesOf_cons (n, l) g m

theorem foldl_dictSet_eq (V : List String) : ∀ (l : List String) (acc : Graph),
    (∀ n ∈ l, acc.any (fun e => e.1 == n) = false) → l.Nodup →
    l.foldl (fun g n => dictSet g n V) acc = acc ++ l.map (fun n => (n, V)) := by
  intro l
  induction l with
  | nil => intro acc _ _; simp
  | cons n rest ih =>
    intro acc hacc hnd
    rw [List.foldl_cons]
    have hset : dictSet acc n V = acc ++ [(n, V)] := by
      rw [dictSet, if_neg (by simp [hacc n (List.mem_cons_self n rest)])]
    have hnext : ∀ m ∈ rest, ((acc ++ [(n, V)]).any (fun e => e.1 == m)) = false := by
      intro m hm
      rw [List.any_append]
      have h1 : acc.any (fun e => e.1 == m) = false := hacc m (List.mem_cons_of_mem n hm)
      have hne : n ≠ m := fun hEq => (List.nodup_cons.mp hnd).1 (hEq ▸ hm)
      have h2 : ([(n, V)].any (fun e => e.1 == m)) = false := by
        simp only [List.any_cons, List.any_nil, Bool.or_false]
        simpa using hne
      rw [h1, h2]
      rfl
    rw [hset, ih (acc ++ [(n, V)]) hnext (List.Nodup.of_cons hnd)]
    simp

theorem generate_starting_graph_eq (names : List String) (h : names.Nodup) :
    generate_starting_graph names = names.map (fun n => (n, names)) := by
  rw [generate_starting_graph, foldl_dictSet_eq names names [] (by simp) h]
  simp

theorem edgesOf_const_map (names V : List String) (m : String) (hm : m ∈ names) :
    edgesOf (names.map (fun n => (n, V))) m = V := by
  induction names with
  | nil => cases hm
  | cons a rest ih =>
    rw [List.map_cons, edgesOf_cons_pair]
    by_cases h : a = m
    · rw [if_pos h]
    · rw [if_neg h]
      rcases List.mem_cons.mp hm with hEq | hmem
      · exact absurd hEq.symm h
      · exact ih hmem

theorem enforce_keys : ∀ (g g2 : Graph) (people : List Person),
    enforce_restrictions g people = some g2 → graphKeys g2 = graphKeys g := by
  intro g
  induction g with
  | nil =>
    intro g2 people h
    rw [enforce_restrictions] at h
    cases h
    rfl
  | cons e rest ih =>
    intro g2 people h
    obtain ⟨n0, l0⟩ := e
    rw [enforce_restrictions] at h
    cases he : enforceEntry people (n0, l0) with
    | none => rw [he] at h; cases h
    | some e2 =>
      cases hr : enforce_restrictions rest people with
      | none => rw [he, hr] at h; cases h
      | some g3 =>
        rw [he, hr] at h
        cases h
        cases hlook : get_person_from_name n0 people with
        | none => rw [enforceEntry, hlook] at he; cases he
        | some q =>
          rw [enforceEntry_some people n0 l0 q hlook] at he
          cases he
          show n0 :: graphKeys g3 = n0 :: graphKeys rest
          rw [ih g3 people hr]

theorem enforce_edges : ∀ (g g2 : Graph) (people : List Person),
    enforce_restrictions g people = some g2 → ∀ (m : String),
    edgesOf g2 m ⊆ edgesOf g m ∧ ((edgesOf g m).Nodup → (edgesOf g2 m).Nodup) := by
  intro g
  induction g with
  | nil =>
    intro g2 people h m
    rw [enforce_restrictions] at h
    cases h
    exact ⟨fun x hx => hx, fun hx => hx⟩
  | cons e rest ih =>
    intro g2 people h m
    obtain ⟨n0, l0⟩ := e
    rw [enforce_restrictions] at h
    cases he : enforceEntry people (n0, l0) with
    | none => rw [he] at h; cases h
    | some e2 =>
      cases hr : enforce_restrictions rest people with
      | none => rw [he, hr] at h; cases h
      | some g3 =>
        rw [he, hr] at h
        cases h
        cases hlook : get_person_from_name n0 people with
        | none => rw [enforceEntry, hlook] at he; cases he
        | some q =>
          rw [enforceEntry_some people n0 l0 q hlook] at he
          cases he
          rw [edgesOf_cons_pair, edgesOf_cons_pair]
          by_cases hm : n0 = m
          · rw [if_pos hm, if_pos hm]
            constructor
            · exact fun x hx => List.erase_subset _ _ (List.erase_subset _ _ hx)
            · exact fun hnd => (hnd.erase n0).erase q.restriction
          · rw [if_neg hm, if_neg hm]
            exact ih g3 people hr m

theorem setMatchesGo_early (rand : ℕ → ℕ) : ∀ (ks : List String) (g : Graph)
    (p : List Person) (k : ℕ) (g2 : Graph) (p2 : List Person) (k2 : ℕ),
    setMatchesGo rand ks g p k = SMRes.res g2 p2 k2 false →
    ks.Nodup →
    (∀ n ∈ ks, ∃ q ∈ p, q.name = n ∧ q.receiver = none) →
    ∃ q ∈ p2, q.receiver = none := by
  intro ks
  induction ks with
  | nil =>
    intro g p k g2 p2 k2 h _ _
    cases h
  | cons n rest ih =>
    intro g p k g2 p2 k2 h hnd hinv
    simp only [setMatchesGo] at h
    by_cases hlen : (edgesOf g n).length = 0
    · rw [if_pos hlen] at h
      cases h
      obtain ⟨q, hq, _, hq0⟩ := hinv n (List.mem_cons_self n rest)
      exact ⟨q, hq, hq0⟩
    · rw [if_neg hlen] at h
      cases hlook : get_person_from_name n p with
      | none => rw [hlook] at h; cases h
      | some gifter =>
        rw [hlook] at h
        obtain ⟨hgmem, hgname⟩ := get_person_from_name_spec n p gifter hlook
        refine ih _ _ _ _ _ _ h (List.Nodup.of_cons hnd) ?_
        intro m hm
        obtain ⟨q, hq, hqn, hq0⟩ := hinv m (List.mem_cons_of_mem n hm)
        have hmn : m ≠ n := fun hEq => (List.nodup_cons.mp hnd).1 (hEq ▸ hm)
        refine ⟨q, ?_, hqn, hq0⟩
        exact setReceiverAt_mem_of_ne p gifter.name _ q hq (by rw [hqn, hgname]; exact hmn)

/-- The key invariant of the assignment pass: a completed pass (no early
termination) over duplicate-free keys ending in graph keys with
duplicate-free eligible lists drawn from V assigns every remaining
participant a fresh receiver from V — so all receivers are set, pairwise
distinct and drawn from V. -/
theorem setMatchesGo_complete (rand : ℕ → ℕ) (V : List String) :
    ∀ (ks : List String) (g : Graph) (p : List Person) (k : ℕ)
      (g2 : Graph) (p2 : List Person) (k2 : ℕ),
    setMatchesGo rand ks g p k = SMRes.res g2 p2 k2 true →
    (p.map Person.name).Nodup →
    ks.Nodup →
    (∀ n ∈ ks, edgesOf g n ⊆ V) →
    (∀ n ∈ ks, (edgesOf g n).Nodup) →
    (∀ n ∈ ks, ∀ r ∈ assigned p, r ∉ edgesOf g n) →
    (assigned p).Nodup →
    assigned p ⊆ V →
    (∀ q ∈ p, (q.receiver = none ↔ q.name ∈ ks)) →
    p2.map Person.name = p.map Person.name ∧
    (∀ q ∈ p2, q.receiver ≠ none) ∧
    (assigned p2).Nodup ∧
    assigned p2 ⊆ V := by
  intro ks
  induction ks with
  | nil =>
    intro g p k g2 p2 k2 h h1 _ _ _ _ h6 h7 h8
    cases h
    refine ⟨rfl, ?_, h6, h7⟩
    intro q hq hqnone
    simpa using (h8 q hq).mp hqnone
  | cons n rest ih =>
    intro g p k g2 p2 k2 h h1 h2 h3 h4 h5 h6 h7 h8
    simp only [setMatchesGo] at h
    by_cases hlen : (edgesOf g n).length = 0
    · rw [if_pos hlen] at h
      cases h
    · rw [if_neg hlen] at h
      cases hlook : get_person_from_name n p with
      | none => rw [hlook] at h; cases h
      | some gifter =>
        rw [hlook] at h
        obtain ⟨hgmem, hgname⟩ := get_person_from_name_spec n p gifter hlook
        have hpos : 0 < (edgesOf g n).length := Nat.pos_of_ne_zero hlen
        have hn_in : n ∈ n :: rest := List.mem_cons_self n rest
        have hnrest : n ∉ rest := (List.nodup_cons.mp h2).1
        have hrmem : (edgesOf g n).getD (rand k % (edgesOf g n).length) "" ∈ edgesOf g n :=
          getD_mem_of_lt _ _ _ (Nat.mod_lt _ hpos)
        have hg0 : gifter.receiver = none :=
          (h8 gifter hgmem).mpr (by rw [hgname]; exact hn_in)
        have hperm : List.Perm
            (assigned (setReceiverAt p gifter.name
              (some ((edgesOf g n).getD (rand k % (edgesOf g n).length) ""))))
            ((edgesOf g n).getD (rand k % (edgesOf g n).length) "" :: assigned p) :=
          assigned_setReceiverAt p gifter.name _ h1 gifter hgmem rfl hg0
        have hrV : (edgesOf g n).getD (rand k % (edgesOf g n).length) "" ∈ V :=
          h3 n hn_in hrmem
        have hrnot : (edgesOf g n).getD (rand k % (edgesOf g n).length) "" ∉ assigned p :=
          fun hmem => absurd hrmem (h5 n hn_in _ hmem)
        have hnodup1 : (assigned (setReceiverAt p gifter.name
            (some ((edgesOf g n).getD (rand k % (edgesOf g n).length) "")))).Nodup :=
          (hperm.nodup_iff).mpr (List.nodup_cons.mpr ⟨hrnot, h6⟩)
        have hsub1 : assigned (setReceiverAt p gifter.name
            (some ((edgesOf g n).getD (rand k % (edgesOf g n).length) ""))) ⊆ V := by
          intro x hx
          rcases List.mem_cons.mp (hperm.subset hx) with hEq | hmem
          · exact hEq ▸ hrV
          · exact h7 hmem
        have hedge : ∀ m ∈ rest,
            edgesOf (remove_receiver_from_edges gifter.name
              ((edgesOf g n).getD (rand k % (edgesOf g n).length) "") g) m =
              (edgesOf g m).erase ((edgesOf g n).getD (rand k % (edgesOf g n).length) "") := by
          intro m hm
          have hmn : m ≠ gifter.name := by
            rw [hgname]
            exact fun hEq => hnrest (hEq ▸ hm)
          rw [edgesOf_remove, if_neg hmn]
        have hyp3 : ∀ m ∈ rest,
            edgesOf (remove_receiver_from_edges gifter.name
              ((edgesOf g n).getD (rand k % (edgesOf g n).length) "") g) m ⊆ V := by
          intro m hm x hx
          rw [hedge m hm] at hx
          exact h3 m (List.mem_cons_of_mem n hm) (List.erase_subset _ _ hx)
        have hyp4 : ∀ m ∈ rest,
            (edgesOf (remove_receiver_from_edges gifter.name
              ((edgesOf g n).getD (rand k % (edgesOf g n).length) "") g) m).Nodup := by
          intro m hm
          rw [hedge m hm]
          exact (h4 m (List.mem_cons_of_mem n hm)).erase _
        have hyp5 : ∀ m ∈ rest, ∀ x ∈ assigned (setReceiverAt p gifter.name
              (some ((edgesOf g n).getD (rand k % (edgesOf g n).length) ""))),
            x ∉ edgesOf (remove_receiver_from_edges gifter.name
              ((edgesOf g n).getD (rand k % (edgesOf g n).length) "") g) m := by
          intro m hm x hx hxin
          rw [hedge m hm] at hxin
          rcases List.mem_cons.mp (hperm.subset hx) with hEq | hmem
          · subst hEq
            exact absurd
              (((h4 m (List.mem_cons_of_mem n hm)).mem_erase_iff).mp hxin).1 (by simp)
          · exact h5 m (List.mem_cons_of_mem n hm) x hmem (List.erase_subset _ _ hxin)
        have hyp8 : ∀ x ∈ setReceiverAt p gifter.name
              (some ((edgesOf g n).getD (rand k % (edgesOf g n).length) "")),
            (x.receiver = none ↔ x.name ∈ rest) := by
          intro x hx
          rcases setReceiverAt_forall p gifter.name _ h1 x hx with ⟨hxn, hxr⟩ | ⟨hxp, hxn⟩
          · constructor
            · intro h0; rw [hxr] at h0; cases h0
            · intro hmem
              rw [hxn, hgname] at hmem
              exact absurd hmem hnrest
          · have hxn2 : x.name ≠ n := by rw [← hgname]; exact hxn
            rw [h8 x hxp]
            constructor
            · intro hmem
              rcases List.mem_cons.mp hmem with hEq | hm
              · exact absurd hEq hxn2
              · exact hm
            · exact fun hm => List.mem_cons_of_mem n hm
        have hmain := ih
          (remove_receiver_from_edges gifter.name
            ((edgesOf g n).getD (rand k % (edgesOf g n).length) "") g)
          (setReceiverAt p gifter.name
            (some ((edgesOf g n).getD (rand k % (edgesOf g n).length) "")))
          (k + 1) g2 p2 k2 h
          (by rw [setReceiverAt_map_name]; exact h1)
          (List.Nodup.of_cons h2)
          hyp3 hyp4 hyp5 hnodup1 hsub1 hyp8
        exact ⟨hmain.1.trans (setReceiverAt_map_name p gifter.name _),
          hmain.2.1, hmain.2.2.1, hmain.2.2.2⟩

/-- Any successful return of the while body chain yields a bijective
assignment: induction over the fuel, using the completion invariant on the
iteration that finally passed check_matches. -/
theorem secretSantaAux_success (rand : ℕ → ℕ) (names : List String) :
    ∀ (fuel : ℕ) (p : List Person) (k : ℕ) (g2 : Graph) (p2 : List Person),
    secretSantaAux rand names p k fuel = some (SantaOutcome.success g2 p2) →
    p.map Person.name = names →
    names.Nodup →
    List.Perm (p2.map Person.receiver) (names.map some) := by
  intro fuel
  induction fuel with
  | zero =>
    intro p k g2 p2 h _ _
    cases h
  | succ m ih =>
    intro p k g2 p2 h hnames hnd
    simp only [secretSantaAux] at h
    cases henf : enforce_restrictions (generate_starting_graph names) (reset_matches p) with
    | none =>
      rw [henf] at h
      cases h
    | some gB =>
      rw [henf] at h
      replace h : (match set_matches rand gB (reset_matches p) k with
          | SMRes.keyError => some SantaOutcome.keyError
          | SMRes.res g3 people2 k2 _ =>
            if check_matches people2 then some (SantaOutcome.success g3 people2)
            else secretSantaAux rand names people2 k2 m) =
          some (SantaOutcome.success g2 p2) := h
      cases hsm : set_matches rand gB (reset_matches p) k with
      | keyError =>
        rw [hsm] at h
        cases h
      | res g3 p3 k3 c =>
        rw [hsm] at h
        replace h : (if check_matches p3 then some (SantaOutcome.success g3 p3)
            else secretSantaAux rand names p3 k3 m) =
            some (SantaOutcome.success g2 p2) := h
        rw [set_matches] at hsm
        cases henf2 : enforce_restrictions gB (reset_matches p) with
        | none => rw [henf2] at hsm; cases hsm
        | some gC =>
          rw [henf2] at hsm
          replace hsm : setMatchesGo rand (graphKeys gC) gC (reset_matches p) k =
              SMRes.res g3 p3 k3 c := hsm
          have hp3names : p3.map Person.name = names :=
            (setMatchesGo_map_name rand _ _ _ _ _ _ _ _ hsm).trans
              ((reset_map_name p).trans hnames)
          by_cases hcm : check_matches p3 = true
          · rw [if_pos hcm] at h
            cases h
            have hkeys : graphKeys gC = names := by
              rw [enforce_keys _ _ _ henf2, enforce_keys _ _ _ henf,
                generate_starting_graph_eq names hnd]
              show List.map Prod.fst (names.map (fun n => (n, names))) = names
              rw [List.map_map]
              show List.map (fun n => n) names = names
              simp
            have hbase : ∀ m2 ∈ names,
                edgesOf (generate_starting_graph names) m2 = names := by
              intro m2 hm2
              rw [generate_starting_graph_eq names hnd]
              exact edgesOf_const_map names names m2 hm2
            have hedgesub : ∀ m2 ∈ names, edgesOf gC m2 ⊆ names := by
              intro m2 hm2 x hx
              have hx2 := (enforce_edges _ _ _ henf m2).1
                ((enforce_edges _ _ _ henf2 m2).1 hx)
              rwa [hbase m2 hm2] at hx2
            have hedgesnd : ∀ m2 ∈ names, (edgesOf gC m2).Nodup := by
              intro m2 hm2
              exact (enforce_edges _ _ _ henf2 m2).2
                ((enforce_edges _ _ _ henf m2).2 (by rw [hbase m2 hm2]; exact hnd))
            cases c with
            | false =>
              exfalso
              have hinv : ∀ m2 ∈ graphKeys gC,
                  ∃ q ∈ reset_matches p, q.name = m2 ∧ q.receiver = none := by
                rw [hkeys]
                intro m2 hm2
                have hmm : m2 ∈ (reset_matches p).map Person.name := by
                  rw [reset_map_name, hnames]; exact hm2
                obtain ⟨q, hq, hqn⟩ := List.mem_map.mp hmm
                exact ⟨q, hq, hqn, reset_receiver_none p q hq⟩
              obtain ⟨q, hq, hq0⟩ := setMatchesGo_early rand (graphKeys gC) gC
                (reset_matches p) k g2 p2 k3 hsm (by rw [hkeys]; exact hnd) hinv
              exact ((check_matches_eq_true_iff p2).mp hcm q hq).1 hq0
            | true =>
              have hres := setMatchesGo_complete rand names (graphKeys gC) gC
                (reset_matches p) k g2 p2 k3 hsm
                (by rw [reset_map_name, hnames]; exact hnd)
                (by rw [hkeys]; exact hnd)
                (by rw [hkeys]; exact hedgesub)
                (by rw [hkeys]; exact hedgesnd)
                (by rw [assigned_reset]; intro m2 hm2 r hr; cases hr)
                (by rw [assigned_reset]; exact List.nodup_nil)
                (by rw [assigned_reset]; intro x hx; cases hx)
                (by
                  rw [hkeys]
                  intro q hq
                  constructor
                  · intro _
                    have hmm : q.name ∈ (reset_matches p).map Person.name :=
                      List.mem_map_of_mem _ hq
                    rwa [reset_map_name, hnames] at hmm
                  · intro _
                    exact reset_receiver_none p q hq)
              have hall := hres.2.1
              have hlen2 : (assigned p2).length = names.length := by
                rw [assigned_length p2 hall]
                have hx : (p2.map Person.name).length = names.length := by
                  rw [hp3names]
                simpa using hx
              have hpermN : List.Perm (assigned p2) names :=
                List.Subperm.perm_of_length_le
                  (List.subperm_of_subset hres.2.2.1 hres.2.2.2)
                  (le_of_eq hlen2.symm)
              rw [map_receiver_eq_assigned p2 hall]
              exact hpermN.map some
          · rw [if_neg hcm] at h
            exact ih p3 k3 g2 p2 h hp3names hnd

/-- Claim C2: whenever secret_santa returns successfully on a valid roster
(the name list is exactly the participants' names, without duplicates), the
assignment is a bijection on the participant-name set: the multiset of
assigned receivers is a permutation of the names, each occurring exactly
once. -/
theorem claim_C2_theorem (rand : ℕ → ℕ) (people : List Person)
    (names : List String) (fuel : ℕ) (g2 : Graph) (p2 : List Person)
    (hnames : people.map Person.name = names) (hnd : names.Nodup)
    (h : secret_santa rand people names fuel = some (SantaOutcome.success g2 p2)) :
    List.Perm (p2.map Person.receiver) (names.map some) := by
  rw [secret_santa] at h
  by_cases hcm : check_matches people = true
  · rw [if_pos hcm] at h
    cases h
  · rw [if_neg hcm] at h
    exact secretSantaAux_success rand names fuel people 0 g2 p2 h hnames hnd

/-- Claim C2 witness: the spec's two-excluded-pairs scenario, run with the
pick-first stream, succeeds with A→C, B→D, C→A, D→B — a permutation of the
participant names. -/
theorem claim_C2_witness :
    List.Perm (people4final.map Person.receiver) (names4.map some) :=
  claim_C2_theorem randZero people4 names4 1 graph4final people4final rfl
    (by decide) (by decide)

end Santa
